import Mathlib

/-!
Verification development for the beam-design tool
(Traegerbemessungstool): a shallow embedding in Lean 4 of the
computational core of the Python/NumPy source, with theorems about the
load-case evaluators, the moving-load envelope and the profile search.

Machine floats of the source are modelled by exact rationals; NumPy
arrays by lists of rationals, combined index-wise.
-/

namespace Traeger

/-- NumPy `np.linspace start stop num` (endpoint included): `num`
uniformly spaced values from `start` to `stop`.  For `num = 1` NumPy
returns just `[start]`; for `num = 0` the empty array. -/
def linspace (start stop : ℚ) (num : ℕ) : List ℚ :=
  if num = 0 then []
  else if num = 1 then [start]
  else (List.range num).map (fun i : ℕ => start + (i : ℚ) * (stop - start) / ((num : ℚ) - 1))

/-- Python `int(r)`: truncation toward zero. -/
def pyInt (r : ℚ) : ℤ :=
  if 0 ≤ r then ⌊r⌋ else ⌈r⌉

/-- A catalog entry of `IPE_DATA`: name, mass per length (kg/m) and
elastic section modulus `Wy` (cm^3). -/
structure Profile where
  name : String
  mass : ℚ
  Wy : ℚ
deriving DecidableEq, Repr

/-- The fixed IPE catalog of the source, in its insertion
(ascending-size) order. -/
def IPE_DATA : List Profile :=
  [⟨"IPE 80", 6, 20⟩,
   ⟨"IPE 100", 81/10, 171/5⟩,
   ⟨"IPE 120", 52/5, 53⟩,
   ⟨"IPE 140", 129/10, 773/10⟩,
   ⟨"IPE 160", 79/5, 109⟩,
   ⟨"IPE 180", 94/5, 146⟩,
   ⟨"IPE 200", 112/5, 194⟩,
   ⟨"IPE 220", 131/5, 252⟩,
   ⟨"IPE 240", 307/10, 324⟩,
   ⟨"IPE 270", 361/10, 429⟩,
   ⟨"IPE 300", 211/5, 557⟩,
   ⟨"IPE 330", 491/10, 713⟩,
   ⟨"IPE 360", 571/10, 904⟩,
   ⟨"IPE 400", 663/10, 1160⟩,
   ⟨"IPE 450", 388/5, 1500⟩,
   ⟨"IPE 500", 907/10, 1930⟩,
   ⟨"IPE 550", 106, 2440⟩,
   ⟨"IPE 600", 122, 3070⟩]

/-- Source table `STEEL_GRADES`: yield strength in MPa by grade name. -/
def STEEL_GRADES (grade : String) : Option ℚ :=
  if grade = "S235" then some 235
  else if grade = "S355" then some 355
  else none

/-- Source function `calculate_distributed_moment_shear`: moment and shear arrays for a
uniform load `q` (kN/m) on span `L`, sampled at `x_vals`. -/
def calculate_distributed_moment_shear (L q : ℚ) (x_vals : List ℚ) : List ℚ × List ℚ :=
  let Ra := q * L / 2
  (x_vals.map (fun x => q * x / 2 * (L - x)),
   x_vals.map (fun x => Ra - q * x))

/-- Source function `calculate_triangular_moment_shear`: moment and shear arrays for a
triangular load rising to `q_max` at `x = L`, sampled at `x_vals`. -/
def calculate_triangular_moment_shear (L q_max : ℚ) (x_vals : List ℚ) : List ℚ × List ℚ :=
  let Ra := q_max * L / 6
  (x_vals.map (fun x => Ra * x - q_max * x ^ 3 / (6 * L)),
   x_vals.map (fun x => Ra - q_max * x ^ 2 / (2 * L)))

/-- The sweep grid `q_positions = np.linspace(0, L, int(L*10) + 1)` of
`calculate_moving_load_envelope`.  (NumPy raises when the requested
count is negative, which happens only for `L ≤ -0.1`; the claims under
study all have `L > 0`, where `Int.toNat` is the identity.) -/
def q_positions (L : ℚ) : List ℚ :=
  linspace 0 L (pyInt (L * 10) + 1).toNat

/-- The per-sample moment placed by the moving load at position `a`:
body of `M_temp` in the source, with `Ra = Q * (L - a) / L`. -/
def M_temp_at (L Q a x : ℚ) : ℚ :=
  if x ≤ a then Q * (L - a) / L * x else Q * (L - a) / L * x - Q * (x - a)

/-- The per-sample shear placed by the moving load at position `a`:
body of `V_temp` in the source. -/
def V_temp_at (L Q a x : ℚ) : ℚ :=
  if x ≤ a then Q * (L - a) / L else Q * (L - a) / L - Q

/-- Source function `calculate_moving_load_envelope`: running index-wise maximum of
`np.abs(M_temp)` and `np.abs(V_temp)` over the sweep grid, starting
from all-zero arrays. -/
def calculate_moving_load_envelope (L Q : ℚ) (x_vals : List ℚ) : List ℚ × List ℚ :=
  (q_positions L).foldl
    (fun acc a =>
      (List.zipWith max acc.1 ((x_vals.map (fun x => M_temp_at L Q a x)).map (fun v => |v|)),
       List.zipWith max acc.2 ((x_vals.map (fun x => V_temp_at L Q a x)).map (fun v => |v|))))
    (x_vals.map (fun _ => 0), x_vals.map (fun _ => 0))

/-- The moment envelope at a single sample `x` (the value the array
computation of the source puts at the index of `x`). -/
def envM_at (L Q x : ℚ) : ℚ :=
  (q_positions L).foldl (fun m a => max m |M_temp_at L Q a x|) 0

/-- The shear envelope at a single sample `x`. -/
def envV_at (L Q x : ℚ) : ℚ :=
  (q_positions L).foldl (fun m a => max m |V_temp_at L Q a x|) 0

/-- NumPy `np.max` on a nonempty list (the source only applies it to the
200-sample arrays, never empty). -/
def listMax : List ℚ → ℚ
  | [] => 0
  | x :: xs => xs.foldl max x

/-- The per-profile quantities the search loop body computes. -/
structure DesignResult where
  M_Ed : ℚ
  V_Ed : ℚ
  Sigma : ℚ
  Util : ℚ
  x : List ℚ
  M_array : List ℚ
  V_array : List ℚ
deriving DecidableEq, Repr

/-- The body of the profile-search loop: design quantities for one
candidate profile at span `L`, triangular peak `delta_g`, moving load
`Q_load` and yield strength `fy`, over `x = np.linspace(0, L, 200)`. -/
def evalProfile (L delta_g Q_load fy : ℚ) (p : Profile) : DesignResult :=
  let x := linspace 0 L 200
  let g_k := p.mass * 9.81 / 1000
  let Mg := calculate_distributed_moment_shear L g_k x
  let Mdg := calculate_triangular_moment_shear L delta_g x
  let MQ := calculate_moving_load_envelope L Q_load x
  let M_Ed_array := List.zipWith (fun s m => 1.35 * s + 1.5 * m)
    (List.zipWith (fun a b => a + b) Mg.1 Mdg.1) MQ.1
  let V_Ed_array := List.zipWith (fun s m => 1.35 * s + 1.5 * m)
    (List.zipWith (fun a b => |a| + |b|) Mg.2 Mdg.2) MQ.2
  let max_M_Ed := listMax M_Ed_array
  let max_V_Ed := listMax V_Ed_array
  let sigma_Ed := max_M_Ed / p.Wy * 1000
  let utilization := sigma_Ed / fy
  ⟨max_M_Ed, max_V_Ed, sigma_Ed, utilization, x, M_Ed_array, V_Ed_array⟩

/-- The search loop of the source: walk the catalog in order, return
the first profile whose utilization is `≤ 1` together with its results
(`break`), or `none` when the loop falls through (`best_profile`
remains `None` and the source shows the explicit error branch). -/
def profileSearch (L delta_g Q_load fy : ℚ) : List Profile → Option (Profile × DesignResult)
  | [] => none
  | p :: rest =>
    let r := evalProfile L delta_g Q_load fy p
    if r.Util ≤ 1 then some (p, r) else profileSearch L delta_g Q_load fy rest

/-! ### Helper lemmas: linspace -/

lemma linspace_eq_of_two_le (start stop : ℚ) (n : ℕ) (h : 2 ≤ n) :
    linspace start stop n =
      (List.range n).map (fun i : ℕ => start + (i : ℚ) * (stop - start) / ((n : ℚ) - 1)) := by
  unfold linspace
  rw [if_neg (by omega), if_neg (by omega)]

lemma linspace_one (start stop : ℚ) : linspace start stop 1 = [start] := by
  unfold linspace
  norm_num

lemma linspace_ne_nil (start stop : ℚ) (n : ℕ) (h : 1 ≤ n) :
    linspace start stop n ≠ [] := by
  rcases Nat.lt_or_ge n 2 with h2 | h2
  · have : n = 1 := by omega
    subst this
    rw [linspace_one]
    simp
  · rw [linspace_eq_of_two_le _ _ _ h2]
    intro hc
    rw [List.map_eq_nil_iff, List.range_eq_nil] at hc
    omega

lemma mem_linspace_bounds (L : ℚ) (hL : 0 ≤ L) (n : ℕ) (v : ℚ)
    (hv : v ∈ linspace 0 L n) : 0 ≤ v ∧ v ≤ L := by
  rcases Nat.lt_or_ge n 2 with h2 | h2
  · interval_cases n
    · simp [linspace] at hv
    · rw [linspace_one] at hv
      simp at hv
      subst hv
      exact ⟨le_refl 0, hL⟩
  · rw [linspace_eq_of_two_le _ _ _ h2] at hv
    obtain ⟨i, hi, rfl⟩ := List.mem_map.mp hv
    rw [List.mem_range] at hi
    simp only [zero_add, sub_zero]
    have hn1 : (0 : ℚ) < (n : ℚ) - 1 := by
      have : (2 : ℚ) ≤ (n : ℚ) := by exact_mod_cast h2
      linarith
    have hiq : (i : ℚ) ≤ (n : ℚ) - 1 := by
      have : (i : ℚ) + 1 ≤ (n : ℚ) := by exact_mod_cast hi
      linarith
    constructor
    · exact div_nonneg (mul_nonneg (Nat.cast_nonneg i) hL) hn1.le
    · rw [div_le_iff₀ hn1]
      nlinarith [mul_le_mul_of_nonneg_right hiq hL]

/-! ### Helper lemmas: foldl max -/

lemma foldl_max_init_le {α : Type} (f : α → ℚ) (ps : List α) (init : ℚ) :
    init ≤ ps.foldl (fun m a => max m (f a)) init := by
  induction ps generalizing init with
  | nil => exact le_refl _
  | cons hd tl ih =>
    simp only [List.foldl_cons]
    exact le_trans (le_max_left _ _) (ih _)

lemma foldl_max_le_of_mem {α : Type} (f : α → ℚ) (ps : List α) (init : ℚ) (a : α)
    (ha : a ∈ ps) : f a ≤ ps.foldl (fun m b => max m (f b)) init := by
  induction ps generalizing init with
  | nil => cases ha
  | cons hd tl ih =>
    simp only [List.foldl_cons]
    rcases List.mem_cons.mp ha with rfl | hmem
    · exact le_trans (le_max_right _ _) (foldl_max_init_le f tl _)
    · exact ih _ hmem

lemma foldl_max_le {α : Type} (f : α → ℚ) (ps : List α) (init B : ℚ)
    (h0 : init ≤ B) (h : ∀ a ∈ ps, f a ≤ B) :
    ps.foldl (fun m b => max m (f b)) init ≤ B := by
  induction ps generalizing init with
  | nil => exact h0
  | cons hd tl ih =>
    simp only [List.foldl_cons]
    exact ih _ (max_le h0 (h hd (List.mem_cons_self _ _)))
      (fun a ha => h a (List.mem_cons_of_mem _ ha))

lemma foldl_max_eq_init_or_mem {α : Type} (f : α → ℚ) (ps : List α) (init : ℚ) :
    ps.foldl (fun m b => max m (f b)) init = init ∨
      ∃ a ∈ ps, ps.foldl (fun m b => max m (f b)) init = f a := by
  induction ps generalizing init with
  | nil => exact Or.inl rfl
  | cons hd tl ih =>
    simp only [List.foldl_cons]
    rcases ih (max init (f hd)) with heq | ⟨a, ha, heq⟩
    · rcases max_choice init (f hd) with hm | hm
      · exact Or.inl (heq.trans hm)
      · exact Or.inr ⟨hd, List.mem_cons_self _ _, heq.trans hm⟩
    · exact Or.inr ⟨a, List.mem_cons_of_mem _ ha, heq⟩

lemma foldl_max_eq_init {α : Type} (f : α → ℚ) (ps : List α) (init : ℚ)
    (h : ∀ a ∈ ps, f a ≤ init) :
    ps.foldl (fun m b => max m (f b)) init = init :=
  le_antisymm (foldl_max_le f ps init init (le_refl _) h) (foldl_max_init_le f ps init)

/-! ### Helper lemmas: listMax -/

lemma listMax_le (l : List ℚ) (B : ℚ) (hne : l ≠ []) (h : ∀ v ∈ l, v ≤ B) :
    listMax l ≤ B := by
  match l with
  | [] => exact absurd rfl hne
  | x :: xs =>
    show xs.foldl max x ≤ B
    have : xs.foldl max x = xs.foldl (fun m b => max m (id b)) x := by
      simp only [id]
    rw [this]
    exact foldl_max_le id xs x B (h x (List.mem_cons_self _ _))
      (fun a ha => h a (List.mem_cons_of_mem _ ha))

lemma le_listMax_of_mem (l : List ℚ) (v : ℚ) (hv : v ∈ l) : v ≤ listMax l := by
  match l with
  | [] => cases hv
  | x :: xs =>
    show v ≤ xs.foldl max x
    have : xs.foldl max x = xs.foldl (fun m b => max m (id b)) x := by
      simp only [id]
    rw [this]
    rcases List.mem_cons.mp hv with rfl | hmem
    · exact foldl_max_init_le id xs v
    · exact foldl_max_le_of_mem id xs x v hmem

/-! ### Helper lemmas: zipWith fusion -/

lemma zipWith_map_same {α : Type} (f : ℚ → ℚ → ℚ) (g h : α → ℚ) (l : List α) :
    List.zipWith f (l.map g) (l.map h) = l.map (fun x => f (g x) (h x)) := by
  rw [List.zipWith_map, List.zipWith_same]

/-! ### Helper lemmas: the sweep grid -/

lemma q_positions_eq_of_pos (L : ℚ) (hL : 0 < L) :
    q_positions L = linspace 0 L (⌊L * 10⌋.toNat + 1) := by
  unfold q_positions pyInt
  rw [if_pos (by positivity)]
  congr 1
  have h0 : 0 ≤ ⌊L * 10⌋ := Int.floor_nonneg.mpr (by positivity)
  omega

lemma q_positions_small (L : ℚ) (hL : 0 < L) (hs : L < 1/10) : q_positions L = [0] := by
  rw [q_positions_eq_of_pos L hL]
  have hf : ⌊L * 10⌋ = 0 := by
    rw [Int.floor_eq_zero_iff]
    constructor
    · positivity
    · linarith
  rw [hf]
  exact linspace_one 0 L

lemma mem_q_positions_bounds (L : ℚ) (hL : 0 < L) (a : ℚ) (ha : a ∈ q_positions L) :
    0 ≤ a ∧ a ≤ L := by
  rw [q_positions_eq_of_pos L hL] at ha
  exact mem_linspace_bounds L hL.le _ a ha

lemma q_positions_ne_nil (L : ℚ) (hL : 0 < L) : q_positions L ≠ [] := by
  rw [q_positions_eq_of_pos L hL]
  exact linspace_ne_nil _ _ _ (by omega)

/-! ### Helper lemmas: the envelope computation, index-wise -/

lemma envelope_aux (L Q : ℚ) (xs ps : List ℚ) (f g : ℚ → ℚ) :
    ps.foldl
      (fun acc a =>
        (List.zipWith max acc.1 ((xs.map (fun x => M_temp_at L Q a x)).map (fun v => |v|)),
         List.zipWith max acc.2 ((xs.map (fun x => V_temp_at L Q a x)).map (fun v => |v|))))
      (xs.map f, xs.map g)
    = (xs.map (fun x => ps.foldl (fun m a => max m |M_temp_at L Q a x|) (f x)),
       xs.map (fun x => ps.foldl (fun m a => max m |V_temp_at L Q a x|) (g x))) := by
  induction ps generalizing f g with
  | nil => simp
  | cons hd tl ih =>
    simp only [List.foldl_cons, List.map_map, Function.comp_def] at ih ⊢
    rw [zipWith_map_same max f _ xs, zipWith_map_same max g _ xs]
    exact ih _ _

/-- The array computation of the envelope is index-wise: each output
entry is the envelope of its own sample position. -/
lemma envelope_eq_pointwise (L Q : ℚ) (xs : List ℚ) :
    calculate_moving_load_envelope L Q xs = (xs.map (envM_at L Q), xs.map (envV_at L Q)) := by
  unfold calculate_moving_load_envelope envM_at envV_at
  exact envelope_aux L Q xs (q_positions L) (fun _ => 0) (fun _ => 0)

lemma envM_at_nonneg (L Q x : ℚ) : 0 ≤ envM_at L Q x :=
  foldl_max_init_le _ _ 0

lemma envV_at_nonneg (L Q x : ℚ) : 0 ≤ envV_at L Q x :=
  foldl_max_init_le _ _ 0

lemma abs_M_temp_le_envM (L Q x a : ℚ) (ha : a ∈ q_positions L) :
    |M_temp_at L Q a x| ≤ envM_at L Q x :=
  foldl_max_le_of_mem _ _ 0 a ha

lemma abs_V_temp_le_envV (L Q x a : ℚ) (ha : a ∈ q_positions L) :
    |V_temp_at L Q a x| ≤ envV_at L Q x :=
  foldl_max_le_of_mem _ _ 0 a ha

lemma envM_at_le (L Q x B : ℚ) (hB : 0 ≤ B)
    (h : ∀ a ∈ q_positions L, |M_temp_at L Q a x| ≤ B) : envM_at L Q x ≤ B :=
  foldl_max_le _ _ 0 B hB h

lemma envV_at_le (L Q x B : ℚ) (hB : 0 ≤ B)
    (h : ∀ a ∈ q_positions L, |V_temp_at L Q a x| ≤ B) : envV_at L Q x ≤ B :=
  foldl_max_le _ _ 0 B hB h

lemma envM_at_attained (L Q x : ℚ) (hL : 0 < L) :
    ∃ a ∈ q_positions L, envM_at L Q x = |M_temp_at L Q a x| := by
  rcases foldl_max_eq_init_or_mem (fun a => |M_temp_at L Q a x|) (q_positions L) 0
    with h0 | ⟨a, ha, heq⟩
  · obtain ⟨a0, ha0⟩ := List.exists_mem_of_ne_nil _ (q_positions_ne_nil L hL)
    refine ⟨a0, ha0, ?_⟩
    have hle : |M_temp_at L Q a0 x| ≤ 0 := by
      have := abs_M_temp_le_envM L Q x a0 ha0
      unfold envM_at at this
      rw [h0] at this
      exact this
    unfold envM_at
    rw [h0]
    exact (le_antisymm hle (abs_nonneg _)).symm
  · exact ⟨a, ha, heq⟩

lemma envV_at_attained (L Q x : ℚ) (hL : 0 < L) :
    ∃ a ∈ q_positions L, envV_at L Q x = |V_temp_at L Q a x| := by
  rcases foldl_max_eq_init_or_mem (fun a => |V_temp_at L Q a x|) (q_positions L) 0
    with h0 | ⟨a, ha, heq⟩
  · obtain ⟨a0, ha0⟩ := List.exists_mem_of_ne_nil _ (q_positions_ne_nil L hL)
    refine ⟨a0, ha0, ?_⟩
    have hle : |V_temp_at L Q a0 x| ≤ 0 := by
      have := abs_V_temp_le_envV L Q x a0 ha0
      unfold envV_at at this
      rw [h0] at this
      exact this
    unfold envV_at
    rw [h0]
    exact (le_antisymm hle (abs_nonneg _)).symm
  · exact ⟨a, ha, heq⟩

/-! ### Zero-load and degenerate-sweep facts about the envelope -/

lemma M_temp_at_zero_Q (L a x : ℚ) : M_temp_at L 0 a x = 0 := by
  unfold M_temp_at
  split <;> ring

lemma V_temp_at_zero_Q (L a x : ℚ) : V_temp_at L 0 a x = 0 := by
  unfold V_temp_at
  split <;> ring

lemma envM_at_zero_Q (L x : ℚ) : envM_at L 0 x = 0 := by
  unfold envM_at
  apply foldl_max_eq_init
  intro a _
  rw [M_temp_at_zero_Q]
  simp

lemma envV_at_zero_Q (L x : ℚ) : envV_at L 0 x = 0 := by
  unfold envV_at
  apply foldl_max_eq_init
  intro a _
  rw [V_temp_at_zero_Q]
  simp

lemma M_temp_at_sweep_zero (L Q x : ℚ) (hL : L ≠ 0) (hx : 0 ≤ x) :
    M_temp_at L Q 0 x = 0 := by
  unfold M_temp_at
  split
  · rename_i h
    have hx0 : x = 0 := le_antisymm h hx
    rw [hx0]
    ring
  · rw [sub_zero, sub_zero, mul_div_assoc, div_self hL]
    ring

lemma V_temp_at_sweep_zero (L Q x : ℚ) (hL : L ≠ 0) (hx : 0 ≤ x) :
    V_temp_at L Q 0 x = if x = 0 then Q else Q - Q := by
  unfold V_temp_at
  by_cases hx0 : x = 0
  · rw [if_pos hx0, if_pos (le_of_eq hx0), sub_zero, mul_div_assoc, div_self hL, mul_one]
  · have hxpos : 0 < x := lt_of_le_of_ne hx (Ne.symm hx0)
    rw [if_neg hx0, if_neg (not_le.mpr hxpos), sub_zero, mul_div_assoc, div_self hL, mul_one]

lemma envM_at_small (L Q x : ℚ) (hL : 0 < L) (hs : L < 1/10) (hx : 0 ≤ x) :
    envM_at L Q x = 0 := by
  unfold envM_at
  rw [q_positions_small L hL hs]
  simp only [List.foldl_cons, List.foldl_nil]
  rw [M_temp_at_sweep_zero L Q x hL.ne' hx]
  simp

lemma envV_at_small (L Q x : ℚ) (hL : 0 < L) (hs : L < 1/10) (hQ : 0 ≤ Q) (hx : 0 ≤ x) :
    envV_at L Q x = if x = 0 then Q else 0 := by
  unfold envV_at
  rw [q_positions_small L hL hs]
  simp only [List.foldl_cons, List.foldl_nil]
  rw [V_temp_at_sweep_zero L Q x hL.ne' hx]
  by_cases hx0 : x = 0
  · rw [if_pos hx0, if_pos hx0, abs_of_nonneg hQ, max_eq_right hQ]
  · rw [if_neg hx0, if_neg hx0, sub_self]
    simp

/-! ### Definitions written from the wording of the specification,
for comparison with the source translation -/

/-- From the spec: one sweep sample of the moving-load moment, with
reaction `Ra = Q (L - a) / L`; `M = Ra x` for `x ≤ a` and
`M = Ra x - Q (x - a)` for `x > a`. -/
def spec_mov_M (L Q a x : ℚ) : ℚ :=
  if x ≤ a then Q * (L - a) / L * x else Q * (L - a) / L * x - Q * (x - a)

/-- From the spec: one sweep sample of the moving-load shear, `V = Ra`
for `x ≤ a` and `V = Ra - Q` for `x > a`. -/
def spec_mov_V (L Q a x : ℚ) : ℚ :=
  if x ≤ a then Q * (L - a) / L else Q * (L - a) / L - Q

/-- From the spec: the sweep grid spans `[0, L]` inclusive of both
ends with ten positions per unit length (`⌊10 L⌋` equal steps), and
degenerates to the single position `0` (minimum one position). -/
def specSweepGrid (L : ℚ) : List ℚ :=
  if ⌊L * 10⌋.toNat = 0 then [0]
  else (List.range (⌊L * 10⌋.toNat + 1)).map
    (fun i : ℕ => (i : ℚ) * L / (⌊L * 10⌋.toNat : ℚ))

/-- From the spec: self-weight load of a candidate, mass per length
times the gravitational constant, converted to kN/m. -/
def spec_g (p : Profile) : ℚ := p.mass * 9.81 / 1000

/-- From the spec: dead-load (uniform) moment at `x`. -/
def spec_M_dead (L g x : ℚ) : ℚ := g * x / 2 * (L - x)

/-- From the spec: dead-load (uniform) shear at `x`, `q L / 2 - q x`. -/
def spec_V_dead (L g x : ℚ) : ℚ := g * L / 2 - g * x

/-- From the spec: triangular-load moment at `x`,
`Ra x - q x^3 / (6 L)` with `Ra = q L / 6`. -/
def spec_M_tri (L dg x : ℚ) : ℚ := dg * L / 6 * x - dg * x ^ 3 / (6 * L)

/-- From the spec: triangular-load shear at `x`,
`Ra - q x^2 / (2 L)` with `Ra = q L / 6`. -/
def spec_V_tri (L dg x : ℚ) : ℚ := dg * L / 6 - dg * x ^ 2 / (2 * L)

/-- From the spec: per-sample design moment
`M_Ed x = 1.35 (M_dead x + M_tri x) + 1.5 M_mov x`. -/
def spec_M_Ed (L dg Q : ℚ) (p : Profile) (x : ℚ) : ℚ :=
  1.35 * (spec_M_dead L (spec_g p) x + spec_M_tri L dg x) + 1.5 * envM_at L Q x

/-- From the spec: per-sample design shear using absolute values of
the non-enveloped components plus the enveloped moving shear. -/
def spec_V_Ed (L dg Q : ℚ) (p : Profile) (x : ℚ) : ℚ :=
  1.35 * (|spec_V_dead L (spec_g p) x| + |spec_V_tri L dg x|) + 1.5 * envV_at L Q x

/-- From the spec: governing stress, maximum design moment over the
sample grid divided by `Wy`, converted so kNm and cm^3 give MPa. -/
def spec_sigma (L dg Q : ℚ) (p : Profile) : ℚ :=
  listMax ((linspace 0 L 200).map (spec_M_Ed L dg Q p)) / p.Wy * 1000

/-- From the spec: utilization ratio `sigma_Ed / f_y`. -/
def spec_util (L dg Q fy : ℚ) (p : Profile) : ℚ :=
  spec_sigma L dg Q p / fy

/-- The loop body agrees index-wise with the per-sample formulas of
the specification: the array combination of the source fuses into one
map over the sample grid. -/
lemma evalProfile_eq (L dg Q fy : ℚ) (p : Profile) :
    evalProfile L dg Q fy p =
      ⟨listMax ((linspace 0 L 200).map (spec_M_Ed L dg Q p)),
       listMax ((linspace 0 L 200).map (spec_V_Ed L dg Q p)),
       spec_sigma L dg Q p,
       spec_util L dg Q fy p,
       linspace 0 L 200,
       (linspace 0 L 200).map (spec_M_Ed L dg Q p),
       (linspace 0 L 200).map (spec_V_Ed L dg Q p)⟩ := by
  simp only [evalProfile, calculate_distributed_moment_shear, calculate_triangular_moment_shear,
    envelope_eq_pointwise, zipWith_map_same, spec_sigma, spec_util, spec_M_Ed, spec_V_Ed,
    spec_M_dead, spec_V_dead, spec_M_tri, spec_V_tri, spec_g]
  rfl

lemma listMax_map_zero (l : List ℚ) (hne : l ≠ []) :
    listMax (l.map (fun _ => (0 : ℚ))) = 0 := by
  apply le_antisymm
  · apply listMax_le _ _ (by simpa using hne)
    intro v hv
    obtain ⟨w, _, rfl⟩ := List.mem_map.mp hv
    exact le_refl 0
  · obtain ⟨w, hw⟩ := List.exists_mem_of_ne_nil l hne
    exact le_listMax_of_mem _ 0 (List.mem_map_of_mem _ hw)

/-- A massless candidate with zero triangular load has zero utilization
whenever the moving-load envelope vanishes on the sample grid, in
particular for a sub-decimeter span (degenerate sweep grid). -/
lemma evalProfile_util_small (L Q fy Wy : ℚ) (name : String)
    (hL : 0 < L) (hs : L < 1/10) :
    (evalProfile L 0 Q fy ⟨name, 0, Wy⟩).Util = 0 := by
  rw [evalProfile_eq]
  show spec_util L 0 Q fy ⟨name, 0, Wy⟩ = 0
  unfold spec_util spec_sigma
  have h : ∀ x ∈ linspace 0 L 200, spec_M_Ed L 0 Q ⟨name, 0, Wy⟩ x = (fun _ => (0:ℚ)) x := by
    intro x hx
    have hx0 : 0 ≤ x := (mem_linspace_bounds L hL.le 200 x hx).1
    unfold spec_M_Ed spec_M_dead spec_M_tri spec_g
    rw [envM_at_small L Q x hL hs hx0]
    have hm : (⟨name, 0, Wy⟩ : Profile).mass = 0 := rfl
    rw [hm]
    ring
  rw [List.map_congr_left h,
    listMax_map_zero _ (linspace_ne_nil 0 L 200 (by omega))]
  simp

/-! ### Claims about the load-case evaluators -/

/-- Claim C7: for span `L > 0`, load `q ≥ 0` and samples in `[0, L]`,
the uniform-load evaluator returns `V x = q L / 2 - q x` and
`M x = (q x / 2) (L - x)` at every sample. -/
theorem uniform_load_formula (L q : ℚ) (hL : 0 < L) (hq : 0 ≤ q)
    (xs : List ℚ) (hxs : ∀ x ∈ xs, 0 ≤ x ∧ x ≤ L) :
    calculate_distributed_moment_shear L q xs =
      (xs.map (spec_M_dead L q), xs.map (spec_V_dead L q)) := rfl

theorem uniform_load_formula_witness :
    (0 : ℚ) < 2 ∧ (0 : ℚ) ≤ 1 ∧
    calculate_distributed_moment_shear 2 1 [0, 1, 2] =
      (([0, 1, 2] : List ℚ).map (spec_M_dead 2 1),
       ([0, 1, 2] : List ℚ).map (spec_V_dead 2 1)) := by
  refine ⟨by norm_num, by norm_num,
    uniform_load_formula 2 1 (by norm_num) (by norm_num) [0, 1, 2] ?_⟩
  intro x hx
  fin_cases hx <;> norm_num

/-- Claim C8: for span `L > 0` and peak `q_max ≥ 0`, the
triangular-load evaluator uses `Ra = q_max L / 6` and returns
`V x = Ra - q_max x^2 / (2 L)` and `M x = Ra x - q_max x^3 / (6 L)`;
the moment at the sample `x = L` is `0`. -/
theorem triangular_load_formula (L q_max : ℚ) (hL : 0 < L) (hq : 0 ≤ q_max)
    (xs : List ℚ) (hxs : ∀ x ∈ xs, 0 ≤ x ∧ x ≤ L) :
    calculate_triangular_moment_shear L q_max xs =
      (xs.map (spec_M_tri L q_max), xs.map (spec_V_tri L q_max)) ∧
    (calculate_triangular_moment_shear L q_max [L]).1 = [0] := by
  refine ⟨rfl, ?_⟩
  have hL0 : L ≠ 0 := hL.ne'
  have hv : q_max * L / 6 * L - q_max * L ^ 3 / (6 * L) = 0 := by
    field_simp
    ring
  simp only [calculate_triangular_moment_shear, List.map_cons, List.map_nil]
  rw [hv]

theorem triangular_load_formula_witness :
    (0 : ℚ) < 2 ∧ (0 : ℚ) ≤ 3 ∧
    (calculate_triangular_moment_shear 2 3 [0, 1, 2] =
      (([0, 1, 2] : List ℚ).map (spec_M_tri 2 3),
       ([0, 1, 2] : List ℚ).map (spec_V_tri 2 3)) ∧
     (calculate_triangular_moment_shear 2 3 [2]).1 = [0]) := by
  refine ⟨by norm_num, by norm_num,
    triangular_load_formula 2 3 (by norm_num) (by norm_num) [0, 1, 2] ?_⟩
  intro x hx
  fin_cases hx <;> norm_num

/-- Claim C9: zero-magnitude loads give identically zero moment and
shear arrays from all three evaluators, on any sample grid. -/
theorem zero_load_zero_forces (L : ℚ) (hL : 0 < L) (xs : List ℚ) :
    calculate_distributed_moment_shear L 0 xs = (xs.map (fun _ => 0), xs.map (fun _ => 0)) ∧
    calculate_triangular_moment_shear L 0 xs = (xs.map (fun _ => 0), xs.map (fun _ => 0)) ∧
    calculate_moving_load_envelope L 0 xs = (xs.map (fun _ => 0), xs.map (fun _ => 0)) := by
  refine ⟨?_, ?_, ?_⟩
  · unfold calculate_distributed_moment_shear
    rw [Prod.mk.injEq]
    constructor
    · exact List.map_congr_left (fun x _ => by ring)
    · exact List.map_congr_left (fun x _ => by ring)
  · unfold calculate_triangular_moment_shear
    rw [Prod.mk.injEq]
    constructor
    · exact List.map_congr_left (fun x _ => by ring)
    · exact List.map_congr_left (fun x _ => by ring)
  · rw [envelope_eq_pointwise, Prod.mk.injEq]
    constructor
    · exact List.map_congr_left (fun x _ => envM_at_zero_Q L x)
    · exact List.map_congr_left (fun x _ => envV_at_zero_Q L x)

theorem zero_load_zero_forces_witness :
    (0 : ℚ) < 3 ∧
    (calculate_distributed_moment_shear 3 0 [0, 2] =
        (([0, 2] : List ℚ).map (fun _ => 0), ([0, 2] : List ℚ).map (fun _ => 0)) ∧
     calculate_triangular_moment_shear 3 0 [0, 2] =
        (([0, 2] : List ℚ).map (fun _ => 0), ([0, 2] : List ℚ).map (fun _ => 0)) ∧
     calculate_moving_load_envelope 3 0 [0, 2] =
        (([0, 2] : List ℚ).map (fun _ => 0), ([0, 2] : List ℚ).map (fun _ => 0))) :=
  ⟨by norm_num, zero_load_zero_forces 3 (by norm_num) [0, 2]⟩

/-- Claim C10: for `0 < L < 0.1` the sweep grid degenerates to the
single position `0`; the moment envelope is identically zero on samples
`x ≥ 0`, and the shear envelope is `Q` at the sample `x = 0` and `0`
at samples `x > 0`. -/
theorem tiny_span_envelope (L Q : ℚ) (hL : 0 < L) (hs : L < 1/10) (hQ : 0 ≤ Q)
    (xs : List ℚ) (hxs : ∀ x ∈ xs, 0 ≤ x) :
    q_positions L = [0] ∧
    calculate_moving_load_envelope L Q xs =
      (xs.map (fun _ => 0), xs.map (fun x => if x = 0 then Q else 0)) := by
  refine ⟨q_positions_small L hL hs, ?_⟩
  rw [envelope_eq_pointwise, Prod.mk.injEq]
  constructor
  · exact List.map_congr_left (fun x hx => envM_at_small L Q x hL hs (hxs x hx))
  · exact List.map_congr_left (fun x hx => envV_at_small L Q x hL hs hQ (hxs x hx))

theorem tiny_span_envelope_witness :
    (0 : ℚ) < 1/20 ∧ (1/20 : ℚ) < 1/10 ∧ (0 : ℚ) ≤ 5 ∧
    (q_positions (1/20) = [0] ∧
     calculate_moving_load_envelope (1/20) 5 [0, 1/40] =
       (([0, 1/40] : List ℚ).map (fun _ => 0),
        ([0, 1/40] : List ℚ).map (fun x => if x = 0 then 5 else 0))) := by
  refine ⟨by norm_num, by norm_num, by norm_num,
    tiny_span_envelope (1/20) 5 (by norm_num) (by norm_num) (by norm_num) [0, 1/40] ?_⟩
  intro x hx
  fin_cases hx <;> norm_num

/-- Claim C5: for `L > 0` the sweep grid is the spec grid (ten
positions per unit length over `[0, L]`, both ends included, at least
one position); the envelope is computed index-wise; and at every
sample it is exactly the maximum of `|M|` resp. `|V|` of the
spec sweep formulas over all sweep positions: an upper bound on each
sweep position that is attained at some sweep position. -/
theorem moving_envelope_spec (L Q : ℚ) (hL : 0 < L) (xs : List ℚ) :
    q_positions L = specSweepGrid L ∧
    calculate_moving_load_envelope L Q xs = (xs.map (envM_at L Q), xs.map (envV_at L Q)) ∧
    (∀ x ∈ xs,
      (∀ a ∈ q_positions L,
        |spec_mov_M L Q a x| ≤ envM_at L Q x ∧ |spec_mov_V L Q a x| ≤ envV_at L Q x) ∧
      (∃ a ∈ q_positions L, envM_at L Q x = |spec_mov_M L Q a x|) ∧
      (∃ a ∈ q_positions L, envV_at L Q x = |spec_mov_V L Q a x|)) := by
  have hMeq : spec_mov_M = M_temp_at := rfl
  have hVeq : spec_mov_V = V_temp_at := rfl
  refine ⟨?_, envelope_eq_pointwise L Q xs, ?_⟩
  · rw [q_positions_eq_of_pos L hL]
    unfold specSweepGrid
    rcases Nat.eq_zero_or_pos ⌊L * 10⌋.toNat with hk | hk
    · rw [hk, if_pos rfl]
      exact linspace_one 0 L
    · rw [if_neg (by omega)]
      rw [linspace_eq_of_two_le 0 L _ (by omega)]
      apply List.map_congr_left
      intro i _
      push_cast
      have hkq : ((⌊L * 10⌋.toNat : ℚ)) ≠ 0 := by
        have : (1 : ℚ) ≤ (⌊L * 10⌋.toNat : ℚ) := by exact_mod_cast hk
        linarith
      field_simp
  · intro x hx
    rw [hMeq, hVeq]
    exact ⟨fun a ha => ⟨abs_M_temp_le_envM L Q x a ha, abs_V_temp_le_envV L Q x a ha⟩,
      envM_at_attained L Q x hL, envV_at_attained L Q x hL⟩

theorem moving_envelope_spec_witness :
    (0 : ℚ) < 1/2 ∧
    (q_positions (1/2) = specSweepGrid (1/2) ∧
     calculate_moving_load_envelope (1/2) 3 [1/4] =
       (([1/4] : List ℚ).map (envM_at (1/2) 3), ([1/4] : List ℚ).map (envV_at (1/2) 3)) ∧
     (∀ x ∈ ([1/4] : List ℚ),
       (∀ a ∈ q_positions (1/2),
         |spec_mov_M (1/2) 3 a x| ≤ envM_at (1/2) 3 x ∧
         |spec_mov_V (1/2) 3 a x| ≤ envV_at (1/2) 3 x) ∧
       (∃ a ∈ q_positions (1/2), envM_at (1/2) 3 x = |spec_mov_M (1/2) 3 a x|) ∧
       (∃ a ∈ q_positions (1/2), envV_at (1/2) 3 x = |spec_mov_V (1/2) 3 a x|))) :=
  ⟨by norm_num, moving_envelope_spec (1/2) 3 (by norm_num) [1/4]⟩

/-! ### Claims about the design search -/

/-- Claim C2: the loop body computes exactly the claimed quantities:
`g = mass x 9.81 / 1000`, per-sample `M_Ed` and `V_Ed` by the
`1.35 / 1.5` superposition, `sigma_Ed = max M_Ed / Wy x 1000`, and
`utilization = sigma_Ed / fy`. -/
theorem design_quantities (L dg Q fy : ℚ) (p : Profile) :
    (evalProfile L dg Q fy p).M_array = (linspace 0 L 200).map (spec_M_Ed L dg Q p) ∧
    (evalProfile L dg Q fy p).V_array = (linspace 0 L 200).map (spec_V_Ed L dg Q p) ∧
    (evalProfile L dg Q fy p).M_Ed = listMax ((evalProfile L dg Q fy p).M_array) ∧
    (evalProfile L dg Q fy p).V_Ed = listMax ((evalProfile L dg Q fy p).V_array) ∧
    (evalProfile L dg Q fy p).Sigma = (evalProfile L dg Q fy p).M_Ed / p.Wy * 1000 ∧
    (evalProfile L dg Q fy p).Util = (evalProfile L dg Q fy p).Sigma / fy := by
  rw [evalProfile_eq]
  exact ⟨rfl, rfl, rfl, rfl, rfl, rfl⟩

/-- Claim C1: a successful search returns the first catalog entry with
utilization at most one, together with its design result; every entry
before it has utilization above one. -/
theorem profileSearch_first_fit (L dg Q fy : ℚ) (cat : List Profile) (p : Profile)
    (r : DesignResult) (h : profileSearch L dg Q fy cat = some (p, r)) :
    r = evalProfile L dg Q fy p ∧ r.Util ≤ 1 ∧
    ∃ pre post, cat = pre ++ p :: post ∧
      ∀ q ∈ pre, 1 < (evalProfile L dg Q fy q).Util := by
  induction cat with
  | nil => exact absurd h (by simp [profileSearch])
  | cons hd tl ih =>
    simp only [profileSearch] at h
    by_cases hu : (evalProfile L dg Q fy hd).Util ≤ 1
    · rw [if_pos hu] at h
      rw [Option.some.injEq, Prod.mk.injEq] at h
      obtain ⟨rfl, rfl⟩ := h
      exact ⟨rfl, hu, [], tl, rfl, fun q hq => absurd hq (List.not_mem_nil q)⟩
    · rw [if_neg hu] at h
      obtain ⟨hr, hu2, pre, post, hcat, hpre⟩ := ih h
      refine ⟨hr, hu2, hd :: pre, post, by rw [hcat]; rfl, ?_⟩
      intro q hq
      rcases List.mem_cons.mp hq with rfl | hq2
      · exact not_le.mp hu
      · exact hpre q hq2

theorem profileSearch_first_fit_witness :
    (evalProfile (1/20) 0 0 235 ⟨"A", 0, 1⟩ = evalProfile (1/20) 0 0 235 ⟨"A", 0, 1⟩ ∧
     (evalProfile (1/20) 0 0 235 ⟨"A", 0, 1⟩).Util ≤ 1 ∧
     ∃ pre post, [(⟨"A", 0, 1⟩ : Profile)] = pre ++ (⟨"A", 0, 1⟩ : Profile) :: post ∧
       ∀ q ∈ pre, 1 < (evalProfile (1/20) 0 0 235 q).Util) := by
  have hu : (evalProfile (1/20) 0 0 235 ⟨"A", 0, 1⟩).Util ≤ 1 := by
    rw [evalProfile_util_small (1/20) 0 235 1 "A" (by norm_num) (by norm_num)]
    norm_num
  apply profileSearch_first_fit (1/20) 0 0 235 [⟨"A", 0, 1⟩] ⟨"A", 0, 1⟩
  simp only [profileSearch]
  rw [if_pos hu]

/-- Claim C3: the search yields the explicit no-candidate outcome
(`none`) exactly when the catalog is empty or every entry has
utilization above one; it never yields a fallback profile. -/
theorem profileSearch_none_iff (L dg Q fy : ℚ) (cat : List Profile) :
    profileSearch L dg Q fy [] = none ∧
    (profileSearch L dg Q fy cat = none ↔
      ∀ p ∈ cat, 1 < (evalProfile L dg Q fy p).Util) := by
  refine ⟨rfl, ?_⟩
  induction cat with
  | nil => simp [profileSearch]
  | cons hd tl ih =>
    simp only [profileSearch]
    by_cases hu : (evalProfile L dg Q fy hd).Util ≤ 1
    · rw [if_pos hu]
      constructor
      · intro h
        exact absurd h (Option.some_ne_none _)
      · intro h
        exact absurd (h hd (List.mem_cons_self _ _)) (not_lt.mpr hu)
    · rw [if_neg hu, ih]
      constructor
      · intro h q hq
        rcases List.mem_cons.mp hq with rfl | hq2
        · exact not_le.mp hu
        · exact h q hq2
      · intro h q hq
        exact h q (List.mem_cons_of_mem _ hq)

/-- Under claim C4 the core would reject non-positive spans and
negative loads; instead it computes: the uniform evaluator returns the
closed-form values at span `-1` with load `-2`, and the search returns
a design result (selects a section) for the negative moving load `-1`. -/
theorem core_computes_on_invalid_input :
    calculate_distributed_moment_shear (-1) (-2) [1] = ([2], [3]) ∧
    (profileSearch (1/20) 0 (-1) 235 [⟨"A", 0, 1⟩]).isSome = true := by
  constructor
  · simp only [calculate_distributed_moment_shear, List.map_cons, List.map_nil,
      Prod.mk.injEq, List.cons.injEq]
    norm_num
  · have hu : (evalProfile (1/20) 0 (-1) 235 ⟨"A", 0, 1⟩).Util ≤ 1 := by
      rw [evalProfile_util_small (1/20) (-1) 235 1 "A" (by norm_num) (by norm_num)]
      norm_num
    simp only [profileSearch]
    rw [if_pos hu]
    rfl

/-- Claim C4 amended: the computation core performs no input
validation; the evaluators compute the closed-form values unchanged
for every span and load, including non-positive spans and negative
loads (no rejection, no clamping). -/
theorem core_no_input_validation (L q : ℚ) (xs : List ℚ) :
    calculate_distributed_moment_shear L q xs =
      (xs.map (spec_M_dead L q), xs.map (spec_V_dead L q)) ∧
    (L ≠ 0 → calculate_triangular_moment_shear L q xs =
      (xs.map (spec_M_tri L q), xs.map (spec_V_tri L q))) :=
  ⟨rfl, fun _ => rfl⟩

/-! ### Claim C6: the envelope peak is QL/4 up to discretization -/

/-- The number of sweep intervals, `⌊10 L⌋`, of the envelope grid. -/
def sweep_intervals (L : ℚ) : ℕ := ⌊L * 10⌋.toNat

/-- Discretization tolerance for the envelope peak: one sweep spacing
`L / ⌊10 L⌋` (with at least one interval) plus the sample-grid term
`L / 158404` coming from the 200-point output grid (`158404 = 4·199²`,
the nearest sample to mid-span being `100 L / 199`). -/
def movingTol (L Q : ℚ) : ℚ :=
  Q * (L / ((max (sweep_intervals L) 1 : ℕ) : ℚ) + L / 158404)

lemma abs_M_temp_le_quarter (L Q a x : ℚ) (hL : 0 < L) (hQ : 0 ≤ Q)
    (ha0 : 0 ≤ a) (haL : a ≤ L) (hx0 : 0 ≤ x) (hxL : x ≤ L) :
    |M_temp_at L Q a x| ≤ Q * L / 4 := by
  unfold M_temp_at
  split
  · rename_i hxa
    have h1 : 0 ≤ Q * (L - a) / L * x :=
      mul_nonneg (div_nonneg (mul_nonneg hQ (sub_nonneg.mpr haL)) hL.le) hx0
    rw [abs_of_nonneg h1, div_mul_eq_mul_div, div_le_div_iff hL (by norm_num : (0:ℚ) < 4)]
    nlinarith [mul_nonneg hQ (sq_nonneg (L - 2*x)),
      mul_nonneg hQ (mul_nonneg hx0 (sub_nonneg.mpr hxa))]
  · rename_i hxa
    push_neg at hxa
    have heq : Q * (L - a) / L * x - Q * (x - a) = Q * a * (L - x) / L := by
      field_simp
      ring
    rw [heq]
    have h1 : 0 ≤ Q * a * (L - x) / L :=
      div_nonneg (mul_nonneg (mul_nonneg hQ ha0) (sub_nonneg.mpr hxL)) hL.le
    rw [abs_of_nonneg h1, div_le_div_iff hL (by norm_num : (0:ℚ) < 4)]
    nlinarith [mul_nonneg hQ (sq_nonneg (L - 2*x)),
      mul_nonneg hQ (mul_nonneg (sub_nonneg.mpr hxa.le) (sub_nonneg.mpr hxL))]

lemma M_temp_lower (L Q a x s : ℚ) (hL : 0 < L) (hQ : 0 ≤ Q)
    (hax : a ≤ x) (hxL : x ≤ L) (has : x - s ≤ a) :
    Q * (x - s) * (L - x) / L ≤ M_temp_at L Q a x := by
  unfold M_temp_at
  split
  · rename_i hxa
    have heqa : a = x := le_antisymm hax hxa
    rw [heqa, div_mul_eq_mul_div, div_le_div_iff hL hL]
    have hs0 : (0:ℚ) ≤ s := by linarith [le_antisymm hax hxa ▸ has]
    nlinarith [mul_nonneg (mul_nonneg (mul_nonneg hL.le hQ) (sub_nonneg.mpr hxL)) hs0]
  · rename_i hxa
    push_neg at hxa
    have heq : Q * (L - a) / L * x - Q * (x - a) = Q * a * (L - x) / L := by
      field_simp
      ring
    rw [heq, div_le_div_iff hL hL]
    nlinarith [mul_nonneg (mul_nonneg (mul_nonneg hQ (sub_nonneg.mpr hxL)) hL.le)
      (sub_nonneg.mpr has)]

/-- Claim C6: over the 200-point output grid, the maximum of the
moving-load moment envelope is `Q L / 4`, within the discretization
tolerance `movingTol` set by the sweep resolution and the sample
grid. -/
theorem moving_envelope_peak (L Q : ℚ) (hL : 0 < L) (hQ : 0 ≤ Q) :
    listMax ((calculate_moving_load_envelope L Q (linspace 0 L 200)).1) ≤ Q * L / 4 ∧
    Q * L / 4 - movingTol L Q ≤
      listMax ((calculate_moving_load_envelope L Q (linspace 0 L 200)).1) := by
  have hfst : (calculate_moving_load_envelope L Q (linspace 0 L 200)).1
      = (linspace 0 L 200).map (envM_at L Q) := by
    rw [envelope_eq_pointwise]
  rw [hfst]
  have hxsne : linspace 0 L 200 ≠ [] := linspace_ne_nil 0 L 200 (by omega)
  constructor
  · apply listMax_le _ _ (by simpa using hxsne)
    intro v hv
    obtain ⟨x, hxmem, rfl⟩ := List.mem_map.mp hv
    obtain ⟨hx0, hxL⟩ := mem_linspace_bounds L hL.le 200 x hxmem
    apply envM_at_le L Q x _ (by positivity)
    intro a ha
    obtain ⟨ha0, haL⟩ := mem_q_positions_bounds L hL a ha
    exact abs_M_temp_le_quarter L Q a x hL hQ ha0 haL hx0 hxL
  · have hxmem : (100 * L / 199 : ℚ) ∈ linspace 0 L 200 := by
      rw [linspace_eq_of_two_le 0 L 200 (by omega)]
      refine List.mem_map.mpr ⟨100, List.mem_range.mpr (by omega), ?_⟩
      push_cast
      ring
    have hx0 : (0:ℚ) ≤ 100 * L / 199 := by positivity
    have hxL : (100 * L / 199 : ℚ) ≤ L := by
      rw [div_le_iff₀ (by norm_num : (0:ℚ) < 199)]
      linarith
    have hchain : Q * L / 4 - movingTol L Q ≤ envM_at L Q (100 * L / 199) := by
      rcases Nat.eq_zero_or_pos (sweep_intervals L) with hk | hk
      · have htol : movingTol L Q = Q * (L / 1 + L / 158404) := by
          unfold movingTol
          rw [hk]
          norm_num
        rw [htol]
        nlinarith [mul_nonneg hQ hL.le, envM_at_nonneg L Q (100 * L / 199)]
      · have hkq0 : (0:ℚ) < (sweep_intervals L : ℚ) := by exact_mod_cast hk
        have hkne : ((sweep_intervals L : ℕ) : ℚ) ≠ 0 := hkq0.ne'
        have htol : movingTol L Q = Q * (L / (sweep_intervals L : ℚ) + L / 158404) := by
          unfold movingTol
          rw [Nat.max_eq_left hk]
        have hdm := Nat.div_add_mod (100 * sweep_intervals L) 199
        have hmod : (100 * sweep_intervals L) % 199 < 199 := Nat.mod_lt _ (by omega)
        have h1 : (100 * sweep_intervals L / 199) * 199 ≤ 100 * sweep_intervals L := by omega
        have h2 : 100 * sweep_intervals L < (100 * sweep_intervals L / 199 + 1) * 199 := by omega
        have h3 : 100 * sweep_intervals L / 199 ≤ sweep_intervals L := by omega
        have h1q : ((100 * sweep_intervals L / 199 : ℕ) : ℚ) * 199
            ≤ 100 * (sweep_intervals L : ℚ) := by exact_mod_cast h1
        have h2q : 100 * (sweep_intervals L : ℚ)
            < (((100 * sweep_intervals L / 199 : ℕ) : ℚ) + 1) * 199 := by exact_mod_cast h2
        have hamem : (((100 * sweep_intervals L / 199 : ℕ) : ℚ) * L / (sweep_intervals L : ℚ))
            ∈ q_positions L := by
          rw [q_positions_eq_of_pos L hL,
            linspace_eq_of_two_le 0 L (⌊L * 10⌋.toNat + 1) (by
              have : 1 ≤ ⌊L * 10⌋.toNat := hk
              omega)]
          refine List.mem_map.mpr ⟨100 * sweep_intervals L / 199,
            List.mem_range.mpr (by
              have h3a : 100 * sweep_intervals L / 199 ≤ sweep_intervals L := h3
              unfold sweep_intervals at h3a ⊢
              omega), ?_⟩
          push_cast
          rw [zero_add, sub_zero, add_sub_cancel_right]
          rfl
        have hax : ((100 * sweep_intervals L / 199 : ℕ) : ℚ) * L / (sweep_intervals L : ℚ)
            ≤ 100 * L / 199 := by
          rw [div_le_div_iff hkq0 (by norm_num : (0:ℚ) < 199)]
          nlinarith [mul_le_mul_of_nonneg_right h1q hL.le]
        have has : 100 * L / 199 - L / (sweep_intervals L : ℚ)
            ≤ ((100 * sweep_intervals L / 199 : ℕ) : ℚ) * L / (sweep_intervals L : ℚ) := by
          have hstep : (100 * (sweep_intervals L : ℚ) - 199) * L
              ≤ 199 * (((100 * sweep_intervals L / 199 : ℕ) : ℚ) * L) := by
            nlinarith [mul_le_mul_of_nonneg_right
              (by linarith [h2q] : 100 * (sweep_intervals L : ℚ) - 199
                ≤ 199 * ((100 * sweep_intervals L / 199 : ℕ) : ℚ)) hL.le]
          rw [div_sub_div _ _ (by norm_num : (199:ℚ) ≠ 0) hkne, div_le_div_iff
            (by positivity) hkq0]
          nlinarith [mul_le_mul_of_nonneg_right hstep hkq0.le]
        have hstep2 : Q * (100 * L / 199 - L / (sweep_intervals L : ℚ)) * (L - 100 * L / 199) / L
            ≤ M_temp_at L Q (((100 * sweep_intervals L / 199 : ℕ) : ℚ) * L
              / (sweep_intervals L : ℚ)) (100 * L / 199) :=
          M_temp_lower L Q _ _ _ hL hQ hax hxL has
        have henv : M_temp_at L Q (((100 * sweep_intervals L / 199 : ℕ) : ℚ) * L
              / (sweep_intervals L : ℚ)) (100 * L / 199)
            ≤ envM_at L Q (100 * L / 199) :=
          le_trans (le_abs_self _) (abs_M_temp_le_envM L Q _ _ hamem)
        have hkey : Q * L / 4 - movingTol L Q
            ≤ Q * (100 * L / 199 - L / (sweep_intervals L : ℚ)) * (L - 100 * L / 199) / L := by
          rw [htol]
          have hiden : Q * (100 * L / 199 - L / (sweep_intervals L : ℚ)) * (L - 100 * L / 199) / L
              - (Q * L / 4 - Q * (L / (sweep_intervals L : ℚ) + L / 158404))
              = Q * (L / (sweep_intervals L : ℚ)) * 100 / 199 := by
            field_simp
            ring
          have hnn : 0 ≤ Q * (L / (sweep_intervals L : ℚ)) :=
            mul_nonneg hQ (div_nonneg hL.le hkq0.le)
          linarith [hiden, hnn]
        exact le_trans hkey (le_trans hstep2 henv)
    exact le_trans hchain (le_listMax_of_mem _ _ (List.mem_map_of_mem _ hxmem))

theorem moving_envelope_peak_witness :
    (0 : ℚ) < 1/2 ∧ (0 : ℚ) ≤ 2 ∧
    (listMax ((calculate_moving_load_envelope (1/2) 2 (linspace 0 (1/2) 200)).1)
        ≤ 2 * (1/2) / 4 ∧
     2 * (1/2) / 4 - movingTol (1/2) 2 ≤
        listMax ((calculate_moving_load_envelope (1/2) 2 (linspace 0 (1/2) 200)).1)) :=
  ⟨by norm_num, by norm_num, moving_envelope_peak (1/2) 2 (by norm_num) (by norm_num)⟩

theorem core_no_input_validation_witness :
    ((-1 : ℚ) ≠ 0) ∧
    (calculate_distributed_moment_shear (-1) (-2) [1] =
      (([1] : List ℚ).map (spec_M_dead (-1) (-2)), ([1] : List ℚ).map (spec_V_dead (-1) (-2))) ∧
     ((-1 : ℚ) ≠ 0 → calculate_triangular_moment_shear (-1) (-2) [1] =
      (([1] : List ℚ).map (spec_M_tri (-1) (-2)), ([1] : List ℚ).map (spec_V_tri (-1) (-2))))) :=
  ⟨by norm_num, core_no_input_validation (-1) (-2) [1]⟩

end Traeger
